import Mathlib

/-!
Verification development for the James' Café CLI ordering system
(src/JamesCafe/JamesCafe.cpp).

Shallow embedding notes:
* C++ `int` is modelled as `Int`; `unsigned long long` arithmetic carries an
  explicit `% 2^64`.  `double` prices are modelled as `ℚ` (every catalog price
  is an exact decimal and the program only adds and multiplies them).
* The menu (`vector<Item>`) is a `List Item`; the `Item*` pointers stored in
  `OrderLine` and returned by `listAvailableInCategory` become indices into
  that list, so that a line dereferenced later reads the *current* item state,
  exactly as a pointer does.
* The interactive selection loop is modelled by `applyRequest`: one pass of
  the category → item → quantity body of the inner `while` in `main`.  The
  prompts `readIntInRange(0,4)`, `readIntInRange(0,size)` and
  `readIntInRange(1,qty)` never return out-of-range values (they re-prompt),
  so an out-of-range choice in a `Request` is modelled as a no-op (the state
  is unchanged while the program re-prompts); in-range choices are applied.
* The blocking console reader `readIntInRange` itself is modelled separately
  over an explicit input stream: a `List (Option (List Char))`, where `none`
  is a failed `getline` (end of input: the code clears the stream and
  re-prompts) and `some line` is a read line.  `stringstream >> x` followed by
  the `ss.eof()` check is `parseIntEof`: skip leading whitespace, optional
  sign, at least one digit, and nothing after the digits.  Integer overflow of
  C++ `int` makes extraction fail there while `parseIntEof` returns the exact
  value; both paths reject the line for every range the program uses (ranges
  are bounded by `int` values), so the returned-value behaviour coincides.
* `generateReceiptNumber` keeps a static counter; here the counter is threaded
  through `DayState`.  `millis` (the clock reading in milliseconds) is an
  input of the model, since the program reads `system_clock::now()`.
-/

/-- Character class accepted by the whitespace skip of `operator>>`. -/
def isStreamSpace (c : Char) : Bool :=
  c = ' ' || c = '\t' || c = '\n' || c = '\x0b' || c = '\x0c' || c = '\r'

/-- Digit string to number, most significant digit first. -/
def digitsToNat (ds : List Char) : Nat :=
  ds.foldl (fun n c => n * 10 + (c.toNat - (48 : Nat))) 0

/-- Model of `stringstream ss(line); ss >> x && ss.eof()`: skip leading
whitespace, read an optional sign and at least one digit, and require the
stream to be exhausted afterwards (any trailing character, whitespace
included, leaves `eof()` false and the line is rejected). -/
def parseIntEof (line : List Char) : Option Int :=
  let r1 := line.dropWhile isStreamSpace
  let signed : Int × List Char :=
    match r1 with
    | '+' :: r => (1, r)
    | '-' :: r => (-1, r)
    | r => (1, r)
  let ds := signed.2.takeWhile Char.isDigit
  let r2 := signed.2.dropWhile Char.isDigit
  if ds = [] then none
  else if r2 = [] then some (signed.1 * (digitsToNat ds : Int))
  else none

/-- Model of the `if (!line.empty() && line.back() == '\r') line.pop_back();`
trim inside `readIntInRange`. -/
def stripCR (line : List Char) : List Char :=
  if line.getLast? = some '\r' then line.dropLast else line

/-- Model of `readIntInRange(prompt, minVal, maxVal)` over an explicit input
stream.  `none` entries are failed `getline` calls (the code does
`cin.clear(); continue;`), rejected lines recurse, and the first line that
parses cleanly to a value inside `[minVal, maxVal]` is returned together with
the unconsumed stream.  An exhausted stream yields `none`: the real loop would
block (or spin) waiting for more input, never returning a value. -/
def readIntInRange (minVal maxVal : Int) :
    List (Option (List Char)) → Option (Int × List (Option (List Char)))
  | [] => none
  | none :: rest => readIntInRange minVal maxVal rest
  | some line :: rest =>
    match parseIntEof (stripCR line) with
    | some x =>
      if minVal ≤ x ∧ x ≤ maxVal then some (x, rest)
      else readIntInRange minVal maxVal rest
    | none => readIntInRange minVal maxVal rest

/-- Menu item (struct `Item`): name, price, remaining quantity, category and
cumulative sold count. -/
structure Item where
  name : String
  price : ℚ
  qty : Int
  category : String
  sold : Int
  deriving DecidableEq, Repr

/-- Order line (struct `OrderLine`): the `Item*` pointer is an index into the
catalog list, plus the committed quantity. -/
structure OrderLine where
  item : Nat
  quantity : Int
  deriving DecidableEq, Repr

/-- Subtotal of a line, `(item ? item->price * quantity : 0.0)`: it reads the
item's price through the stored reference at call time. -/
def OrderLine.subtotal (menu : List Item) (l : OrderLine) : ℚ :=
  match menu[l.item]? with
  | some it => it.price * (l.quantity : ℚ)
  | none => 0

/-- Order (class `Order`): customer data, lines, receipt number and the
creation timestamp in milliseconds. -/
structure Order where
  customerName : String
  dineOption : String
  lines : List OrderLine
  receiptNo : Nat
  timestamp : Nat
  deriving DecidableEq, Repr

/-- Order total, `for (l : lines) t += l.subtotal()`. -/
def Order.total (menu : List Item) (o : Order) : ℚ :=
  o.lines.foldl (fun t l => t + OrderLine.subtotal menu l) 0

def beverages : String := "Beverages"

def snacks : String := "Snacks"

def meals : String := "Meals"

def desserts : String := "Desserts"

/-- The hardcoded catalog built at the start of `main`. -/
def initialMenu : List Item :=
  [⟨"Cappuccino", 140, 20, beverages, 0⟩,
   ⟨"Latte", 150, 20, beverages, 0⟩,
   ⟨"Iced Americano", 120, 20, beverages, 0⟩,
   ⟨"Chocolate Milkshake", 190, 20, beverages, 0⟩,
   ⟨"Blueberry Muffin", 75, 20, snacks, 0⟩,
   ⟨"Garlic Parmesan Toast", 95, 20, snacks, 0⟩,
   ⟨"Glazed Donut Holes", 100, 20, snacks, 0⟩,
   ⟨"Chicken Wrap", 180, 20, meals, 0⟩,
   ⟨"Garlic Rice + Burger", 220, 20, meals, 0⟩,
   ⟨"Chicken Alfredo Pasta", 275, 20, meals, 0⟩,
   ⟨"Chocolate Cake Slice", 130, 20, desserts, 0⟩,
   ⟨"Fruit Parfait", 110, 20, desserts, 0⟩,
   ⟨"Tiramisu", 270, 20, desserts, 0⟩]

/-- `isCategorySoldOut`: true unless some item of the category has stock. -/
def isCategorySoldOut (menu : List Item) (category : String) : Bool :=
  !(menu.any fun item => item.category == category && decide (0 < item.qty))

/-- `listAvailableInCategory`: the in-stock items of a category, in catalog
order (the printed list the customer chooses from). -/
def listAvailableInCategory (menu : List Item) (cat : String) : List Item :=
  menu.filter fun it => it.category == cat && decide (0 < it.qty)

/-- The same `available` vector, as indices into the catalog (the model of
the `Item*` pointers it holds). -/
def availableIndices (menu : List Item) (cat : String) : List Nat :=
  (List.range menu.length).filter fun i =>
    match menu[i]? with
    | some it => it.category == cat && decide (0 < it.qty)
    | none => false

/-- The `switch (catChoice)` mapping a category choice to its name; `0` and
anything else map to the empty string (choice 0 exits the loop before the
switch, so it never commits anything either way). -/
def categoryOfChoice : Nat → String
  | 1 => beverages
  | 2 => snacks
  | 3 => meals
  | 4 => desserts
  | _ => ""

/-- One traversal of the inner selection loop, as chosen by the user: the
category choice, the item choice inside the printed available list
(1-based, 0 = back), and the requested quantity. -/
structure Request where
  catChoice : Nat
  itemChoice : Nat
  qty : Int
  deriving DecidableEq, Repr

/-- One iteration of the selection loop body in `main` (category check, item
pick, quantity prompt, commit).  Out-of-range choices never escape
`readIntInRange`, so they leave the state unchanged here (the program merely
re-prompts); an in-range quantity is pushed as an `OrderLine` and the chosen
item's stock and sold counters are updated through the pointer. -/
def applyRequest (menu : List Item) (lines : List OrderLine) (r : Request) :
    List Item × List OrderLine :=
  let category := categoryOfChoice r.catChoice
  if category = "" then (menu, lines)
  else if isCategorySoldOut menu category then (menu, lines)
  else
    let available := availableIndices menu category
    if available = [] then (menu, lines)
    else if r.itemChoice = 0 ∨ available.length < r.itemChoice then (menu, lines)
    else
      match available[r.itemChoice - 1]? with
      | none => (menu, lines)
      | some i =>
        match menu[i]? with
        | none => (menu, lines)
        | some chosen =>
          if 1 ≤ r.qty ∧ r.qty ≤ chosen.qty then
            (menu.set i
              { chosen with qty := chosen.qty - r.qty, sold := chosen.sold + r.qty },
             lines ++ [⟨i, r.qty⟩])
          else (menu, lines)

/-- The whole selection flow of one customer: fold the requested selections
over the shared menu, accumulating the order's lines. -/
def processRequests (menu : List Item) (rs : List Request) :
    List Item × List OrderLine :=
  rs.foldl (fun p r => applyRequest p.1 p.2 r) (menu, [])

/-- `generateReceiptNumber`: `(millis % 1000000000ULL) + (++counter)` with a
static `unsigned long long` counter; returns the receipt number and the new
counter value. -/
def generateReceiptNumber (millis counter : Nat) : Nat × Nat :=
  let c := (counter + 1) % 2 ^ 64
  ((millis % 1000000000 + c) % 2 ^ 64, c)

def eatInString : String := "Eat-In"

def takeOutString : String := "Take-Out"

def dineString (eatIn : Bool) : String :=
  if eatIn then eatInString else takeOutString

/-- The external inputs of one customer interaction: the accepted name, the
dine choice, the clock reading when the order object is created, and the
selection-loop requests. -/
structure Customer where
  name : String
  eatIn : Bool
  millis : Nat
  requests : List Request
  deriving DecidableEq, Repr

/-- The mutable state of `main`'s outer loop: the shared menu, the finalized
order history, the customers-served counter and the receipt generator's
static counter. -/
structure DayState where
  menu : List Item
  allOrders : List Order
  customersServed : Nat
  counter : Nat
  deriving DecidableEq, Repr

def initState : DayState := ⟨initialMenu, [], 0, 0⟩

/-- One iteration of the outer customer loop in `main`: create the order (the
receipt number is generated here, before any selection), run the selection
flow, then either discard the empty order or append it to the history and
count the customer. -/
def serveCustomer (s : DayState) (c : Customer) : DayState :=
  let g := generateReceiptNumber c.millis s.counter
  let p := processRequests s.menu c.requests
  if p.2 = [] then
    { menu := p.1, allOrders := s.allOrders,
      customersServed := s.customersServed, counter := g.2 }
  else
    { menu := p.1,
      allOrders := s.allOrders ++ [⟨c.name, dineString c.eatIn, p.2, g.1, c.millis⟩],
      customersServed := s.customersServed + 1, counter := g.2 }

/-- A whole run of the program: serve the given customers in order, starting
from the hardcoded catalog. -/
def runDay (cs : List Customer) : DayState := cs.foldl serveCustomer initState

/-- Daily-summary revenue: `for (o : allOrders) totalRevenue += o.total();`,
computed over the final menu state exactly as the program does. -/
def totalRevenue (s : DayState) : ℚ :=
  s.allOrders.foldl (fun a o => a + Order.total s.menu o) 0

/-- The best-seller scan accumulator:
`if (!best || it.sold > best->sold) best = &it;`. -/
def foldBest (acc : Item) : List Item → Item
  | [] => acc
  | x :: xs => foldBest (if x.sold > acc.sold then x else acc) xs

/-- The best-seller scan over the whole menu (`best` starts null, so the
first item always replaces it). -/
def bestSeller : List Item → Option Item
  | [] => none
  | x :: xs => some (foldBest x xs)

/-- What the summary reports: the scan winner if it sold anything, otherwise
nothing (`if (best && best->sold > 0) ... else "No sales recorded."`). -/
def bestSellerReport (menu : List Item) : Option Item :=
  match bestSeller menu with
  | some b => if 0 < b.sold then some b else none
  | none => none

/-- Price of the catalog slot an order line points at (0 for a dangling
reference, mirroring the null check in `OrderLine::subtotal`). -/
def priceAt (menu : List Item) (i : Nat) : ℚ :=
  match menu[i]? with
  | some it => it.price
  | none => 0

/-- The menus that can ever be current during a run: the initial catalog and
anything reachable from it by iterations of the selection-loop body.  Every
menu value held by `main` at any point of any run is of this shape. -/
inductive ReachableMenu : List Item → Prop
  | init : ReachableMenu initialMenu
  | step (m : List Item) (ls : List OrderLine) (r : Request) :
      ReachableMenu m → ReachableMenu (applyRequest m ls r).1

/-- A line the prompt loop turns down: a failed read, a line that does not
parse as a clean integer, or an integer outside the closed range. -/
def rejectedLine (lo hi : Int) (e : Option (List Char)) : Prop :=
  e = none ∨ ∃ l, e = some l ∧
    (parseIntEof (stripCR l) = none ∨
      ∃ y, parseIntEof (stripCR l) = some y ∧ (y < lo ∨ hi < y))

/-! Concrete fixtures used to instantiate theorems with hypotheses. -/

def reqCapp3 : Request := ⟨1, 1, 3⟩

def lineCapp3 : OrderLine := ⟨0, 3⟩

def itemCapp : Item := ⟨"Cappuccino", 140, 20, beverages, 0⟩

def itemCappAfter : Item := ⟨"Cappuccino", 140, 17, beverages, 3⟩

def menuAfterOne : List Item := (applyRequest initialMenu [] reqCapp3).1

def custA : Customer := ⟨"Ann", true, 1, [⟨1, 1, 1⟩]⟩

def custB : Customer := ⟨"Ben", true, 0, [⟨1, 1, 1⟩]⟩

def custEmpty : Customer := ⟨"Cam", true, 0, []⟩

def custDee : Customer := ⟨"Dee", true, 5, [⟨1, 1, 3⟩]⟩

def ordDee : Order := ⟨"Dee", "Eat-In", [⟨0, 3⟩], 6, 5⟩

def custEve : Customer := ⟨"Eve", true, 7, [⟨1, 1, 1⟩]⟩

def custFay : Customer := ⟨"Fay", true, 7, [⟨2, 1, 2⟩]⟩

def promptInputs : List (Option (List Char)) :=
  [none, some ['x'], some [' ', '7']]

def pizza : String := "Pizza"

/-! Helper lemmas about one pass of the selection loop. -/

/-- Either a selection-loop pass changes nothing, or it appends exactly one
line and performs the guarded stock decrement on the chosen item. -/
theorem applyRequest_cases (menu : List Item) (lines : List OrderLine) (r : Request) :
    applyRequest menu lines r = (menu, lines) ∨
    ∃ i chosen, menu[i]? = some chosen ∧ 1 ≤ r.qty ∧ r.qty ≤ chosen.qty ∧
      applyRequest menu lines r =
        (menu.set i { chosen with qty := chosen.qty - r.qty, sold := chosen.sold + r.qty },
         lines ++ [⟨i, r.qty⟩]) := by
  unfold applyRequest
  dsimp only
  repeat' split
  all_goals try exact Or.inl rfl
  rename_i i hi x chosen hchosen hq
  exact Or.inr ⟨i, chosen, hchosen, hq.1, hq.2, rfl⟩

theorem applyRequest_length (menu : List Item) (lines : List OrderLine) (r : Request) :
    (applyRequest menu lines r).1.length = menu.length := by
  rcases applyRequest_cases menu lines r with h | ⟨i, chosen, _, _, _, h⟩
  · rw [h]
  · rw [h]; exact List.length_set menu i _

/-- Pointwise effect of one pass on any slot of the menu: the static fields
survive, the sold counter cannot drop, the stock+sold sum is conserved, and
nonnegative stock stays nonnegative. -/
theorem applyRequest_pointwise (menu : List Item) (lines : List OrderLine) (r : Request)
    (j : Nat) (it : Item) (h : menu[j]? = some it) :
    ∃ it2, (applyRequest menu lines r).1[j]? = some it2 ∧
      it2.name = it.name ∧ it2.price = it.price ∧ it2.category = it.category ∧
      it.sold ≤ it2.sold ∧ it2.qty + it2.sold = it.qty + it.sold ∧
      (0 ≤ it.qty → 0 ≤ it2.qty) := by
  rcases applyRequest_cases menu lines r with hc | ⟨i, chosen, hget, h1, h2, hc⟩
  · exact ⟨it, by rw [hc]; exact h, rfl, rfl, rfl, le_refl _, rfl, fun hh => hh⟩
  · by_cases hij : i = j
    · subst hij
      have hlt : i < menu.length := (List.getElem?_eq_some.mp hget).1
      have hsame : chosen = it := by
        rw [hget] at h; exact Option.some.inj h
      subst hsame
      refine ⟨{ chosen with qty := chosen.qty - r.qty, sold := chosen.sold + r.qty },
        ?_, rfl, rfl, rfl, ?_, ?_, ?_⟩
      · rw [hc]; exact List.getElem?_set_eq_of_lt _ hlt
      · show chosen.sold ≤ chosen.sold + r.qty; omega
      · show chosen.qty - r.qty + (chosen.sold + r.qty) = chosen.qty + chosen.sold; omega
      · intro _; show 0 ≤ chosen.qty - r.qty; omega
    · refine ⟨it, ?_, rfl, rfl, rfl, le_refl _, rfl, fun hh => hh⟩
      rw [hc]; exact (List.getElem?_set_ne hij).trans h

theorem reachable_length (m : List Item) (h : ReachableMenu m) :
    m.length = initialMenu.length := by
  induction h with
  | init => rfl
  | step m ls r _ ih => rw [applyRequest_length]; exact ih

/-- Every slot of every reachable menu keeps its static fields, conserves
stock+sold, never loses sold units, and never goes to negative stock. -/
theorem reachable_pointwise (m : List Item) (h : ReachableMenu m) (j : Nat) (it0 : Item)
    (h0 : initialMenu[j]? = some it0) :
    ∃ it, m[j]? = some it ∧ it.name = it0.name ∧ it.price = it0.price ∧
      it.category = it0.category ∧ it0.sold ≤ it.sold ∧
      it.qty + it.sold = it0.qty + it0.sold ∧ 0 ≤ it.qty := by
  induction h with
  | init =>
    refine ⟨it0, h0, rfl, rfl, rfl, le_refl _, rfl, ?_⟩
    have hq : ∀ it ∈ initialMenu, 0 ≤ it.qty := by decide
    exact hq it0 (List.getElem?_mem h0)
  | step m ls r _ ih =>
    obtain ⟨it, hit, hn, hp, hcat, hs, hsum, hq⟩ := ih
    obtain ⟨it2, hit2, hn2, hp2, hcat2, hs2, hsum2, hq2⟩ :=
      applyRequest_pointwise m ls r j it hit
    exact ⟨it2, hit2, hn2.trans hn, hp2.trans hp, hcat2.trans hcat,
      hs.trans hs2, by omega, hq2 hq⟩

theorem foldl_apply_reachable (rs : List Request) :
    ∀ p : List Item × List OrderLine, ReachableMenu p.1 →
      ReachableMenu (rs.foldl (fun p r => applyRequest p.1 p.2 r) p).1 := by
  induction rs with
  | nil => exact fun p h => h
  | cons r rs ih =>
    intro p h
    exact ih (applyRequest p.1 p.2 r) (ReachableMenu.step p.1 p.2 r h)

theorem serveCustomer_menu (s : DayState) (c : Customer) :
    (serveCustomer s c).menu = (processRequests s.menu c.requests).1 := by
  unfold serveCustomer
  dsimp only
  split <;> rfl

theorem runDay_menu_reachable (cs : List Customer) : ReachableMenu (runDay cs).menu := by
  suffices h : ∀ s : DayState, ReachableMenu s.menu →
      ReachableMenu (cs.foldl serveCustomer s).menu from
    h initState ReachableMenu.init
  induction cs with
  | nil => exact fun s h => h
  | cons c cs ih =>
    intro s h
    refine ih (serveCustomer s c) ?_
    rw [serveCustomer_menu]
    exact foldl_apply_reachable c.requests (s.menu, []) h

theorem reachable_priceAt (m : List Item) (h : ReachableMenu m) (i : Nat) :
    priceAt m i = priceAt initialMenu i := by
  by_cases hlt : i < initialMenu.length
  · have h0 : initialMenu[i]? = some initialMenu[i] := List.getElem?_eq_some.mpr ⟨hlt, rfl⟩
    obtain ⟨it, hit, _, hp, _⟩ := reachable_pointwise m h i _ h0
    simp only [priceAt, hit, h0]
    exact hp
  · have h1 : m[i]? = none := List.getElem?_eq_none (by rw [reachable_length m h]; omega)
    have h2 : initialMenu[i]? = none := List.getElem?_eq_none (by omega)
    simp only [priceAt, h1, h2]

/-! Helper lemmas about totals. -/

theorem foldl_add_map {α : Type} (f : α → ℚ) (l : List α) :
    ∀ a : ℚ, l.foldl (fun t x => t + f x) a = a + (l.map f).sum := by
  induction l with
  | nil => intro a; simp
  | cons x xs ih => intro a; simp only [List.foldl_cons, List.map_cons, List.sum_cons, ih]; ring

theorem subtotal_eq_priceAt (menu : List Item) (l : OrderLine) :
    OrderLine.subtotal menu l = priceAt menu l.item * (l.quantity : ℚ) := by
  cases hm : menu[l.item]? <;> simp [OrderLine.subtotal, priceAt, hm]

theorem total_eq_sum (menu : List Item) (o : Order) :
    Order.total menu o = (o.lines.map fun l => OrderLine.subtotal menu l).sum := by
  rw [Order.total, foldl_add_map, zero_add]

/-! Helper lemmas about the best-seller scan. -/

theorem foldBest_sold_le (xs : List Item) :
    ∀ acc : Item, acc.sold ≤ (foldBest acc xs).sold ∧
      ∀ y ∈ xs, y.sold ≤ (foldBest acc xs).sold := by
  induction xs with
  | nil => intro acc; exact ⟨le_refl _, by simp⟩
  | cons x xs ih =>
    intro acc
    obtain ⟨h1, h2⟩ := ih (if x.sold > acc.sold then x else acc)
    have hacc : acc.sold ≤ (if x.sold > acc.sold then x else acc).sold := by
      split <;> omega
    have hx : x.sold ≤ (if x.sold > acc.sold then x else acc).sold := by
      split <;> omega
    refine ⟨le_trans hacc h1, ?_⟩
    intro y hy
    rcases List.mem_cons.mp hy with h | h
    · subst h; exact le_trans hx h1
    · exact h2 y h

theorem foldBest_cases (xs : List Item) :
    ∀ acc : Item,
      (foldBest acc xs = acc ∧ ∀ y ∈ xs, y.sold ≤ acc.sold) ∨
      (∃ (i : Nat) (y : Item), xs[i]? = some y ∧ foldBest acc xs = y ∧ acc.sold < y.sold ∧
        ∀ (j : Nat) (z : Item), j < i → xs[j]? = some z → z.sold < y.sold) := by
  induction xs with
  | nil => intro acc; exact Or.inl ⟨rfl, by simp⟩
  | cons x xs ih =>
    intro acc
    by_cases hx : x.sold > acc.sold
    · have hstep : foldBest acc (x :: xs) = foldBest x xs := by
        show foldBest (if x.sold > acc.sold then x else acc) xs = foldBest x xs
        rw [if_pos hx]
      rcases ih x with ⟨heq, hall⟩ | ⟨i, y, hget, heq, hlt, hbefore⟩
      · refine Or.inr ⟨0, x, by simp, hstep.trans heq, hx, ?_⟩
        intro j z hj _
        omega
      · refine Or.inr ⟨i + 1, y, by simpa using hget, hstep.trans heq, lt_trans hx hlt, ?_⟩
        intro j z hj hz
        cases j with
        | zero =>
          have hzx : x = z := by simpa using hz
          subst hzx; exact hlt
        | succ k => exact hbefore k z (by omega) (by simpa using hz)
    · have hstep : foldBest acc (x :: xs) = foldBest acc xs := by
        show foldBest (if x.sold > acc.sold then x else acc) xs = foldBest acc xs
        rw [if_neg hx]
      rcases ih acc with ⟨heq, hall⟩ | ⟨i, y, hget, heq, hlt, hbefore⟩
      · refine Or.inl ⟨hstep.trans heq, ?_⟩
        intro y hy
        rcases List.mem_cons.mp hy with h | h
        · subst h; omega
        · exact hall y h
      · refine Or.inr ⟨i + 1, y, by simpa using hget, hstep.trans heq, hlt, ?_⟩
        intro j z hj hz
        cases j with
        | zero =>
          have hzx : x = z := by simpa using hz
          subst hzx; omega
        | succ k => exact hbefore k z (by omega) (by simpa using hz)

/-! Helper lemmas about the outer customer loop and receipt numbers. -/

theorem serveCustomer_counter (s : DayState) (c : Customer) :
    (serveCustomer s c).counter = (s.counter + 1) % 2 ^ 64 := by
  unfold serveCustomer
  dsimp only
  split <;> rfl

theorem serveCustomer_served (s : DayState) (c : Customer) :
    (serveCustomer s c).customersServed = s.customersServed ∨
    (serveCustomer s c).customersServed = s.customersServed + 1 := by
  unfold serveCustomer
  dsimp only
  split
  · exact Or.inl rfl
  · exact Or.inr rfl

/-- The history either stays as it is (empty order, discarded) or gets the
one finalized order of this customer appended, carrying the receipt number
generated at the start of the interaction. -/
theorem serveCustomer_orders (s : DayState) (c : Customer) :
    (serveCustomer s c).allOrders = s.allOrders ∨
    (serveCustomer s c).allOrders = s.allOrders ++
      [⟨c.name, dineString c.eatIn, (processRequests s.menu c.requests).2,
        (c.millis % 1000000000 + (s.counter + 1) % 2 ^ 64) % 2 ^ 64, c.millis⟩] := by
  unfold serveCustomer generateReceiptNumber
  dsimp only
  split
  · exact Or.inl rfl
  · exact Or.inr rfl

/-- Strict growth of the receipt numbers along the run, provided the
time-derived components never decrease and the counter stays far from the
64-bit wrap.  `M` is a lower bound for all upcoming time components and (with
the current counter) a strict upper bound for all receipt numbers already in
the history. -/
theorem receipts_sorted (cs : List Customer) :
    ∀ (s : DayState) (M : Nat),
      s.counter + cs.length + 1000000000 ≤ 2 ^ 64 →
      ((cs.map fun c => c.millis % 1000000000).Pairwise (· ≤ ·)) →
      (∀ c ∈ cs, M ≤ c.millis % 1000000000) →
      (∀ o ∈ s.allOrders, o.receiptNo < M + s.counter + 1) →
      ((s.allOrders.map fun o => o.receiptNo).Pairwise (· < ·)) →
      (((cs.foldl serveCustomer s).allOrders.map fun o => o.receiptNo).Pairwise (· < ·)) := by
  induction cs with
  | nil => intro s M _ _ _ _ hsorted; exact hsorted
  | cons c cs ih =>
    intro s M hcnt hmono hlow hprev hsorted
    simp only [List.length_cons] at hcnt
    have hcmod : (s.counter + 1) % 2 ^ 64 = s.counter + 1 := Nat.mod_eq_of_lt (by omega)
    have ht : c.millis % 1000000000 < 1000000000 := Nat.mod_lt _ (by omega)
    have hMt : M ≤ c.millis % 1000000000 := hlow c (by simp)
    simp only [List.map_cons, List.pairwise_cons] at hmono
    have hmono2 : ∀ d ∈ cs, c.millis % 1000000000 ≤ d.millis % 1000000000 := by
      intro d hd
      exact hmono.1 (d.millis % 1000000000) (List.mem_map_of_mem _ hd)
    have hnewid : (c.millis % 1000000000 + (s.counter + 1) % 2 ^ 64) % 2 ^ 64
        = c.millis % 1000000000 + s.counter + 1 := by
      rw [hcmod, Nat.mod_eq_of_lt (by omega)]
      omega
    have hfold : (c :: cs).foldl serveCustomer s = cs.foldl serveCustomer (serveCustomer s c) :=
      rfl
    rw [hfold]
    have hcounter : (serveCustomer s c).counter = s.counter + 1 := by
      rw [serveCustomer_counter, hcmod]
    rcases serveCustomer_orders s c with horders | horders
    · apply ih (serveCustomer s c) (c.millis % 1000000000)
      · rw [hcounter]; omega
      · exact hmono.2
      · exact hmono2
      · intro o ho
        rw [horders] at ho
        have := hprev o ho
        rw [hcounter]; omega
      · rw [horders]; exact hsorted
    · apply ih (serveCustomer s c) (c.millis % 1000000000)
      · rw [hcounter]; omega
      · exact hmono.2
      · exact hmono2
      · intro o ho
        rw [horders] at ho
        rcases List.mem_append.mp ho with h | h
        · have := hprev o h
          rw [hcounter]; omega
        · have hco : o = ⟨c.name, dineString c.eatIn, (processRequests s.menu c.requests).2,
              (c.millis % 1000000000 + (s.counter + 1) % 2 ^ 64) % 2 ^ 64, c.millis⟩ := by
            simpa using h
          rw [hco, hcounter]
          show (c.millis % 1000000000 + (s.counter + 1) % 2 ^ 64) % 2 ^ 64 <
            c.millis % 1000000000 + (s.counter + 1) + 1
          rw [hnewid]; omega
      · rw [horders, List.map_append, List.pairwise_append]
        refine ⟨hsorted, by simp, ?_⟩
        intro a ha b hb
        simp only [List.map_cons, List.map_nil, List.mem_singleton] at hb
        subst hb
        show _ < (c.millis % 1000000000 + (s.counter + 1) % 2 ^ 64) % 2 ^ 64
        rw [hnewid]
        obtain ⟨o, ho, hao⟩ := List.mem_map.mp ha
        have := hprev o ho
        omega

/-! Helper lemma about the bounded integer prompt. -/

theorem readIntInRange_ind (lo hi : Int) :
    ∀ (inputs rest : List (Option (List Char))) (x : Int),
      readIntInRange lo hi inputs = some (x, rest) →
      lo ≤ x ∧ x ≤ hi ∧
      ∃ pre line, inputs = pre ++ some line :: rest ∧
        parseIntEof (stripCR line) = some x ∧
        ∀ e ∈ pre, rejectedLine lo hi e := by
  intro inputs
  induction inputs with
  | nil => intro rest x h; simp [readIntInRange] at h
  | cons e es ih =>
    intro rest x h
    match e with
    | none =>
      have h2 : readIntInRange lo hi es = some (x, rest) := h
      obtain ⟨ha, hb, pre, line, heq, hpl, hrej⟩ := ih rest x h2
      refine ⟨ha, hb, none :: pre, line, by rw [heq]; rfl, hpl, ?_⟩
      intro e2 he2
      rcases List.mem_cons.mp he2 with h3 | h3
      · subst h3; exact Or.inl rfl
      · exact hrej e2 h3
    | some l =>
      simp only [readIntInRange] at h
      split at h
      · rename_i y hp
        by_cases hin : lo ≤ y ∧ y ≤ hi
        · rw [if_pos hin] at h
          have h4 := Option.some.inj h
          have hx1 : y = x := congrArg Prod.fst h4
          have hr1 : es = rest := congrArg Prod.snd h4
          subst hx1; subst hr1
          exact ⟨hin.1, hin.2, [], l, rfl, hp, by simp⟩
        · rw [if_neg hin] at h
          obtain ⟨ha, hb, pre, line, heq, hpl, hrej⟩ := ih rest x h
          refine ⟨ha, hb, some l :: pre, line, by rw [heq]; rfl, hpl, ?_⟩
          intro e2 he2
          rcases List.mem_cons.mp he2 with h3 | h3
          · subst h3
            exact Or.inr ⟨l, rfl, Or.inr ⟨y, hp, by omega⟩⟩
          · exact hrej e2 h3
      · rename_i hp
        obtain ⟨ha, hb, pre, line, heq, hpl, hrej⟩ := ih rest x h
        refine ⟨ha, hb, some l :: pre, line, by rw [heq]; rfl, hpl, ?_⟩
        intro e2 he2
        rcases List.mem_cons.mp he2 with h3 | h3
        · subst h3
          exact Or.inr ⟨l, rfl, Or.inl hp⟩
        · exact hrej e2 h3

/-! The claims. -/

/-- C1: for every item in the catalog and at every point during the run
(every reachable menu state), remaining stock plus cumulative sold equals the
initial stock, remaining stock is never negative, and the sold counter never
decreases across a further step. -/
theorem stock_conservation :
    (∀ cs : List Customer, ReachableMenu (runDay cs).menu) ∧
    ∀ m, ReachableMenu m → ∀ (j : Nat) (it0 it : Item),
      initialMenu[j]? = some it0 → m[j]? = some it →
      (it.qty + it.sold = it0.qty + it0.sold ∧ 0 ≤ it.qty ∧ it0.sold ≤ it.sold) ∧
      ∀ (ls : List OrderLine) (r : Request) (it2 : Item),
        (applyRequest m ls r).1[j]? = some it2 → it.sold ≤ it2.sold := by
  constructor
  · exact runDay_menu_reachable
  · intro m hm j it0 it h0 hit
    obtain ⟨it3, hit3, _, _, _, hs, hsum, hq⟩ := reachable_pointwise m hm j it0 h0
    have h3 : it3 = it := by rw [hit3] at hit; exact Option.some.inj hit
    subst h3
    refine ⟨⟨by omega, hq, hs⟩, ?_⟩
    intro ls r it2 hit2
    obtain ⟨it4, hit4, _, _, _, hs4, _, _⟩ := applyRequest_pointwise m ls r j it3 hit
    have h4 : it4 = it2 := by rw [hit4] at hit2; exact Option.some.inj hit2
    subst h4
    exact hs4

/-- Witness for C1, at the menu reached by selling 3 Cappuccinos. -/
theorem stock_conservation_witness :
    itemCappAfter.qty + itemCappAfter.sold = itemCapp.qty + itemCapp.sold ∧
    0 ≤ itemCappAfter.qty ∧ itemCapp.sold ≤ itemCappAfter.sold :=
  (stock_conservation.2 menuAfterOne
    (ReachableMenu.step initialMenu [] reqCapp3 ReachableMenu.init)
    0 itemCapp itemCappAfter (by decide) (by decide)).1

/-- C2: one pass of the selection loop either leaves the order untouched or
appends exactly one line; every appended line carries a quantity inside
[1, remaining stock of the chosen item at the quantity prompt], and the stock
decrement it triggers never drives the stock below zero. -/
theorem no_oversell (menu : List Item) (lines : List OrderLine) (r : Request) :
    ((applyRequest menu lines r).2 = lines ∨
      ∃ l, (applyRequest menu lines r).2 = lines ++ [l]) ∧
    ∀ l : OrderLine, (applyRequest menu lines r).2 = lines ++ [l] →
      ∃ chosen, menu[l.item]? = some chosen ∧
        1 ≤ l.quantity ∧ l.quantity ≤ chosen.qty ∧
        ∃ a2, (applyRequest menu lines r).1[l.item]? = some a2 ∧
          a2.qty = chosen.qty - l.quantity ∧ 0 ≤ a2.qty := by
  rcases applyRequest_cases menu lines r with hc | ⟨i, chosen, hget, h1, h2, hc⟩
  · constructor
    · exact Or.inl (by rw [hc])
    · intro l hl
      rw [hc] at hl
      have hlen := congrArg List.length hl
      simp at hlen
  · have hlt : i < menu.length := (List.getElem?_eq_some.mp hget).1
    constructor
    · exact Or.inr ⟨⟨i, r.qty⟩, by rw [hc]⟩
    · intro l hl
      rw [hc] at hl
      have hl2 : lines ++ [(⟨i, r.qty⟩ : OrderLine)] = lines ++ [l] := hl
      have hli : (⟨i, r.qty⟩ : OrderLine) = l := by
        simpa using List.append_cancel_left hl2
      subst hli
      refine ⟨chosen, hget, h1, h2,
        ⟨{ chosen with qty := chosen.qty - r.qty, sold := chosen.sold + r.qty }, ?_, rfl, ?_⟩⟩
      · rw [hc]; exact List.getElem?_set_eq_of_lt _ hlt
      · show 0 ≤ chosen.qty - r.qty; omega

/-- Witness for C2: the committed line of 3 Cappuccinos. -/
theorem no_oversell_witness :
    ∃ chosen, initialMenu[lineCapp3.item]? = some chosen ∧
      1 ≤ lineCapp3.quantity ∧ lineCapp3.quantity ≤ chosen.qty ∧
      ∃ a2, (applyRequest initialMenu [] reqCapp3).1[lineCapp3.item]? = some a2 ∧
        a2.qty = chosen.qty - lineCapp3.quantity ∧ 0 ≤ a2.qty :=
  (no_oversell initialMenu [] reqCapp3).2 lineCapp3 (by decide)

/-- C3, counterexample: receipt numbers are `(millis % 10^9) + counter`, so
when the clock's millisecond reading steps back by one between two finalized
orders (here 1 then 0), the two receipt numbers coincide (both are 2): the
identifiers of a run are not pairwise distinct in general. -/
theorem receipt_uniqueness_counterexample :
    ((runDay [custA, custB]).allOrders.map fun o => o.receiptNo) = [2, 2] ∧
    ¬ (((runDay [custA, custB]).allOrders.map fun o => o.receiptNo).Pairwise (· ≠ ·)) := by
  constructor
  · decide
  · decide

/-- C3 as amended: if the time components `millis % 10^9` observed at the
successive order creations never decrease (in particular when several orders
fall in the same millisecond) and the run stays far from the 64-bit counter
wrap, all receipt numbers of finalized orders are pairwise distinct. -/
theorem receipt_uniqueness_monotone (cs : List Customer)
    (hmono : ((cs.map fun c => c.millis % 1000000000).Pairwise (· ≤ ·)))
    (hcnt : cs.length + 1000000000 ≤ 2 ^ 64) :
    (((runDay cs).allOrders.map fun o => o.receiptNo).Pairwise (· ≠ ·)) := by
  have h := receipts_sorted cs initState 0
    (by show 0 + cs.length + 1000000000 ≤ 2 ^ 64; omega) hmono
    (fun c _ => Nat.zero_le _) (by intro o ho; simp [initState] at ho)
    List.Pairwise.nil
  exact h.imp Nat.ne_of_lt

/-- Witness for the amended C3: two orders created in the same millisecond
(millis = 7 for both) still get distinct receipt numbers. -/
theorem receipt_uniqueness_monotone_witness :
    (((runDay [custEve, custFay]).allOrders.map fun o => o.receiptNo).Pairwise (· ≠ ·)) :=
  receipt_uniqueness_monotone [custEve, custFay] (by decide) (by decide)

/-- C4: a customer whose selection flow ends with zero lines leaves the order
history and the customers-served counter untouched; a customer with at least
one line appends exactly one order (carrying those lines) and bumps the
counter by exactly one. -/
theorem cancelled_order_exclusion (s : DayState) (c : Customer) :
    ((processRequests s.menu c.requests).2 = [] →
      (serveCustomer s c).allOrders = s.allOrders ∧
      (serveCustomer s c).customersServed = s.customersServed) ∧
    ((processRequests s.menu c.requests).2 ≠ [] →
      (∃ o, (serveCustomer s c).allOrders = s.allOrders ++ [o] ∧
        o.lines = (processRequests s.menu c.requests).2) ∧
      (serveCustomer s c).customersServed = s.customersServed + 1) := by
  unfold serveCustomer
  dsimp only
  split
  · rename_i hemp
    exact ⟨fun _ => ⟨rfl, rfl⟩, fun hne => absurd hemp hne⟩
  · rename_i hne
    exact ⟨fun hemp => absurd hemp hne, fun _ => ⟨⟨_, rfl, rfl⟩, rfl⟩⟩

/-- Witness for C4: Dee orders 3 Cappuccinos and is served. -/
theorem cancelled_order_exclusion_witness :
    (∃ o, (serveCustomer initState custDee).allOrders = initState.allOrders ++ [o] ∧
      o.lines = (processRequests initState.menu custDee.requests).2) ∧
    (serveCustomer initState custDee).customersServed = initState.customersServed + 1 :=
  (cancelled_order_exclusion initState custDee).2 (by decide)

/-- C9, counterexample: the receipt generator is called when the order object
is created, before any line exists, so a customer who ends with zero lines
(cancelled transaction) still consumes a number from the generator: after one
cancelled interaction the counter is 1, not 0, although no order was kept. -/
theorem receipt_consumed_counterexample :
    (processRequests initState.menu custEmpty.requests).2 = [] ∧
    (serveCustomer initState custEmpty).allOrders = [] ∧
    (serveCustomer initState custEmpty).customersServed = 0 ∧
    (serveCustomer initState custEmpty).counter = 1 := by
  decide

/-- C9 as amended: every customer interaction, finalized or cancelled,
consumes exactly one value from the receipt generator (the counter advances
unconditionally at order creation); a cancelled order's identifier never
reaches the order history. -/
theorem receipt_consumed_every_customer (s : DayState) (c : Customer) :
    (serveCustomer s c).counter = (s.counter + 1) % 2 ^ 64 ∧
    ((processRequests s.menu c.requests).2 = [] →
      (serveCustomer s c).allOrders = s.allOrders) := by
  refine ⟨serveCustomer_counter s c, ?_⟩
  intro hemp
  unfold serveCustomer
  dsimp only
  rw [if_pos hemp]

/-- Witness for the amended C9: serving Cam, who orders nothing. -/
theorem receipt_consumed_every_customer_witness :
    (serveCustomer initState custEmpty).counter = (initState.counter + 1) % 2 ^ 64 ∧
    (serveCustomer initState custEmpty).allOrders = initState.allOrders :=
  ⟨(receipt_consumed_every_customer initState custEmpty).1,
   (receipt_consumed_every_customer initState custEmpty).2 (by decide)⟩

/-- C5: a finalized order's total is the sum over its lines of quantity times
the unit price the item had when the line was selected (prices never change
during a run, so that price is the catalog price), and the daily-summary
revenue is the sum of the finalized orders' totals. -/
theorem totals_correct (cs : List Customer) :
    (∀ o ∈ (runDay cs).allOrders,
      Order.total (runDay cs).menu o =
        (o.lines.map fun l => (l.quantity : ℚ) * priceAt initialMenu l.item).sum) ∧
    totalRevenue (runDay cs) =
      ((runDay cs).allOrders.map fun o => Order.total (runDay cs).menu o).sum := by
  have hreach := runDay_menu_reachable cs
  constructor
  · intro o ho
    have hsub : ∀ l : OrderLine, OrderLine.subtotal (runDay cs).menu l
        = (l.quantity : ℚ) * priceAt initialMenu l.item := by
      intro l
      rw [subtotal_eq_priceAt, reachable_priceAt _ hreach, mul_comm]
    rw [total_eq_sum]
    simp only [hsub]
  · rw [totalRevenue, foldl_add_map, zero_add]

/-- Witness for C5: Dee's order of 3 Cappuccinos totals 3 × 140. -/
theorem totals_correct_witness :
    Order.total (runDay [custDee]).menu ordDee =
      (ordDee.lines.map fun l => (l.quantity : ℚ) * priceAt initialMenu l.item).sum :=
  (totals_correct [custDee]).1 ordDee (by decide)

/-- C6: the summary names no best seller exactly on an all-zero sold profile;
a reported best seller has a positive sold count that no item exceeds, and
every item strictly earlier in catalog order sold strictly less (first max
wins), and some best seller is reported whenever anything sold. -/
theorem best_seller_spec (menu : List Item) :
    ((∀ x ∈ menu, x.sold = 0) → bestSellerReport menu = none) ∧
    (∀ b, bestSellerReport menu = some b →
      0 < b.sold ∧ (∀ y ∈ menu, y.sold ≤ b.sold) ∧
      ∃ i : Nat, menu[i]? = some b ∧
        ∀ (j : Nat) (z : Item), j < i → menu[j]? = some z → z.sold < b.sold) ∧
    ((∃ x ∈ menu, 0 < x.sold) → ∃ b, bestSellerReport menu = some b) := by
  refine ⟨?_, ?_, ?_⟩
  · intro hz
    cases menu with
    | nil => rfl
    | cons m ms =>
      have hrep : bestSellerReport (m :: ms)
          = if 0 < (foldBest m ms).sold then some (foldBest m ms) else none := rfl
      have hmem : foldBest m ms = m ∨ foldBest m ms ∈ ms := by
        rcases foldBest_cases ms m with ⟨h, _⟩ | ⟨i, y, hget, heq, _, _⟩
        · exact Or.inl h
        · exact Or.inr (heq ▸ List.getElem?_mem hget)
      have hsold : (foldBest m ms).sold = 0 := by
        rcases hmem with h | h
        · rw [h]; exact hz m (by simp)
        · exact hz _ (List.mem_cons_of_mem _ h)
      rw [hrep, hsold]
      simp
  · intro b hb
    cases menu with
    | nil => simp [bestSellerReport, bestSeller] at hb
    | cons m ms =>
      have hb2 : (if 0 < (foldBest m ms).sold then some (foldBest m ms) else none)
          = some b := hb
      by_cases hpos : 0 < (foldBest m ms).sold
      · rw [if_pos hpos] at hb2
        have hbb : foldBest m ms = b := Option.some.inj hb2
        obtain ⟨h1, h2⟩ := foldBest_sold_le ms m
        refine ⟨hbb ▸ hpos, ?_, ?_⟩
        · intro y hy
          rcases List.mem_cons.mp hy with h | h
          · subst h; exact hbb ▸ h1
          · exact hbb ▸ h2 y h
        · rcases foldBest_cases ms m with ⟨heq, hall⟩ | ⟨i, y, hget, heq, hlt, hbefore⟩
          · refine ⟨0, ?_, ?_⟩
            · rw [← hbb, heq]; simp
            · intro j z hj _; omega
          · refine ⟨i + 1, ?_, ?_⟩
            · rw [← hbb, heq]; simpa using hget
            · intro j z hj hz
              rw [← hbb, heq]
              cases j with
              | zero =>
                have hzm : m = z := by simpa using hz
                subst hzm
                exact hlt
              | succ k =>
                have hk : ms[k]? = some z := by simpa using hz
                exact hbefore k z (by omega) hk
      · rw [if_neg hpos] at hb2
        exact absurd hb2 (by simp)
  · intro hx
    obtain ⟨x, hx, hpos⟩ := hx
    cases menu with
    | nil => simp at hx
    | cons m ms =>
      obtain ⟨h1, h2⟩ := foldBest_sold_le ms m
      have hposf : 0 < (foldBest m ms).sold := by
        rcases List.mem_cons.mp hx with h | h
        · subst h; omega
        · have := h2 x h; omega
      refine ⟨foldBest m ms, ?_⟩
      show (if 0 < (foldBest m ms).sold then some (foldBest m ms) else none)
        = some (foldBest m ms)
      rw [if_pos hposf]

/-- Witness for C6: the untouched catalog has all sold counts zero, so no
best seller is reported. -/
theorem best_seller_spec_witness : bestSellerReport initialMenu = none :=
  (best_seller_spec initialMenu).1 (by decide)

/-- C7: a category is reported sold out exactly when its available list is
empty, and a category containing no items at all is reported sold out. -/
theorem soldout_iff_no_available (menu : List Item) (cat : String) :
    (isCategorySoldOut menu cat = true ↔ listAvailableInCategory menu cat = []) ∧
    ((∀ it ∈ menu, it.category ≠ cat) → isCategorySoldOut menu cat = true) := by
  constructor
  · simp only [isCategorySoldOut, listAvailableInCategory, Bool.not_eq_true',
      List.any_eq_false, List.filter_eq_nil_iff]
  · intro h
    simp only [isCategorySoldOut, Bool.not_eq_true', List.any_eq_false,
      Bool.and_eq_true, beq_iff_eq, decide_eq_true_eq, not_and]
    intro it hit hcat
    exact absurd hcat (h it hit)

/-- Witness for C7: the catalog holds no Pizza items, so that category is
(vacuously) sold out. -/
theorem soldout_iff_no_available_witness : isCategorySoldOut initialMenu pizza = true :=
  (soldout_iff_no_available initialMenu pizza).2 (by decide)

/-- C8: whenever the bounded prompt returns x for [minVal, maxVal], then
minVal ≤ x ≤ maxVal; it returns only at the first input line that parses as
an integer with nothing after it and lies in the closed range, every earlier
line having been rejected (failed read, parse failure, or out of range); and
a failed read (end of input) is skipped with a re-prompt, not a crash. -/
theorem prompt_in_range (lo hi x : Int) (inputs rest : List (Option (List Char)))
    (h : readIntInRange lo hi inputs = some (x, rest)) :
    lo ≤ x ∧ x ≤ hi ∧
    (∃ pre line, inputs = pre ++ some line :: rest ∧
      parseIntEof (stripCR line) = some x ∧
      ∀ e ∈ pre, rejectedLine lo hi e) ∧
    ∀ more : List (Option (List Char)),
      readIntInRange lo hi (none :: more) = readIntInRange lo hi more := by
  obtain ⟨ha, hb, hrest⟩ := readIntInRange_ind lo hi inputs rest x h
  exact ⟨ha, hb, hrest, fun more => rfl⟩

/-- Witness for C8: a failed read and a garbage line are skipped and the
line holding 7 is accepted for the range [1, 10]. -/
theorem prompt_in_range_witness :
    readIntInRange 1 10 promptInputs = some (7, []) ∧ (1 : Int) ≤ 7 ∧ (7 : Int) ≤ 10 :=
  ⟨by decide, (prompt_in_range 1 10 7 promptInputs [] (by decide)).1,
    (prompt_in_range 1 10 7 promptInputs [] (by decide)).2.1⟩

/-- C10: one commit either leaves the menu unchanged or rewrites exactly one
slot, and there only the qty and sold fields (by the committed amounts); on
every reachable menu each slot keeps its initial name, price and category,
so a line's subtotal recomputed later through its stored reference equals
quantity times the unit price that held at selection time. -/
theorem commit_frame :
    (∀ (m : List Item) (ls : List OrderLine) (r : Request),
      (applyRequest m ls r).1 = m ∨
      ∃ (i : Nat) (it : Item) (q : Int), m[i]? = some it ∧ 1 ≤ q ∧ q ≤ it.qty ∧
        (applyRequest m ls r).1 =
          m.set i { it with qty := it.qty - q, sold := it.sold + q }) ∧
    ∀ m, ReachableMenu m → ∀ (j : Nat) (it0 : Item) (l : OrderLine),
      initialMenu[j]? = some it0 → l.item = j →
      ∃ it, m[j]? = some it ∧ it.name = it0.name ∧ it.price = it0.price ∧
        it.category = it0.category ∧
        OrderLine.subtotal m l = (l.quantity : ℚ) * it0.price := by
  constructor
  · intro m ls r
    rcases applyRequest_cases m ls r with hc | ⟨i, chosen, hget, h1, h2, hc⟩
    · exact Or.inl (by rw [hc])
    · exact Or.inr ⟨i, chosen, r.qty, hget, h1, h2, by rw [hc]⟩
  · intro m hm j it0 l h0 hl
    obtain ⟨it, hit, hn, hp, hcat, _, _, _⟩ := reachable_pointwise m hm j it0 h0
    refine ⟨it, hit, hn, hp, hcat, ?_⟩
    rw [subtotal_eq_priceAt, hl]
    rw [show priceAt m j = it.price from by simp [priceAt, hit]]
    rw [hp, mul_comm]

/-- Witness for C10: after the 3-Cappuccino commit, slot 0 keeps its name,
price and category, and the line's subtotal is 3 × 140. -/
theorem commit_frame_witness :
    ∃ it, menuAfterOne[(0 : Nat)]? = some it ∧ it.name = itemCapp.name ∧
      it.price = itemCapp.price ∧ it.category = itemCapp.category ∧
      OrderLine.subtotal menuAfterOne lineCapp3 = (lineCapp3.quantity : ℚ) * itemCapp.price :=
  commit_frame.2 menuAfterOne
    (ReachableMenu.step initialMenu [] reqCapp3 ReachableMenu.init)
    0 itemCapp lineCapp3 (by decide) (by decide)
